import Mathlib

/-!
Formal model of the `mergevtt` WebVTT merging tool (src/main.rs).

The Rust source is shallowly embedded: strings are `List Char`, the
`std::time::Duration` inside `Timestamp` is a pair of naturals
(seconds, subsecond nanoseconds), `f32` values produced by Rust's
`str::parse::<f32>` are modelled exactly as rounded rationals
represented by numerator/denominator pairs of naturals, `u64`
arithmetic wraps modulo `2 ^ 64` (release-profile semantics), and the
panics reachable from `Duration::from_secs_f32` and `Duration::add`
are explicit outcomes.
-/

set_option linter.unusedVariables false

namespace MergeVTT

/-- Strings are modelled as lists of characters ("Str" side of the model);
`String` is used at the API boundary. -/
abbrev Str := List Char

/-- The Unicode `White_Space` code points, as tested by Rust's
`char::is_whitespace` (used through `str::trim`). -/
def isRustWhitespace (c : Char) : Bool :=
  c.toNat = 0x09 || c.toNat = 0x0A || c.toNat = 0x0B || c.toNat = 0x0C ||
  c.toNat = 0x0D || c.toNat = 0x20 || c.toNat = 0x85 || c.toNat = 0xA0 ||
  c.toNat = 0x1680 || c.toNat = 0x2000 || c.toNat = 0x2001 || c.toNat = 0x2002 ||
  c.toNat = 0x2003 || c.toNat = 0x2004 || c.toNat = 0x2005 || c.toNat = 0x2006 ||
  c.toNat = 0x2007 || c.toNat = 0x2008 || c.toNat = 0x2009 || c.toNat = 0x200A ||
  c.toNat = 0x2028 || c.toNat = 0x2029 || c.toNat = 0x202F || c.toNat = 0x205F ||
  c.toNat = 0x3000

/-- `line.trim().is_empty()` in the source: a line is blank iff every
character is whitespace. -/
def isBlank (l : Str) : Bool := l.all isRustWhitespace

/-- Rust's `str::split(c)`: `""` yields one empty piece, every occurrence of
`c` starts a new piece. -/
def splitChar (c : Char) : Str → List Str
  | [] => [[]]
  | x :: xs =>
    match splitChar c xs with
    | [] => [[]]
    | h :: t => if x = c then [] :: h :: t else (x :: h) :: t

theorem splitChar_ne_nil (c : Char) (s : Str) : splitChar c s ≠ [] := by
  cases s with
  | nil => simp [splitChar]
  | cons x xs =>
    simp only [splitChar]
    cases h : splitChar c xs with
    | nil => simp
    | cons h t =>
      by_cases hx : x = c <;> simp [hx]

theorem splitChar_cons_self (c : Char) (s : Str) :
    splitChar c (c :: s) = [] :: splitChar c s := by
  simp only [splitChar]
  cases h : splitChar c s with
  | nil => exact absurd h (splitChar_ne_nil c s)
  | cons h t => simp

theorem splitChar_cons_ne (c x : Char) (s : Str) (hx : x ≠ c) :
    splitChar c (x :: s) =
      (x :: (splitChar c s).headD []) :: (splitChar c s).tail := by
  simp only [splitChar]
  cases h : splitChar c s with
  | nil => exact absurd h (splitChar_ne_nil c s)
  | cons h t => simp [hx]

/-- Splitting a concatenation whose first part contains no separator. -/
theorem splitChar_append (c : Char) (a b : Str) (ha : c ∉ a) :
    splitChar c (a ++ b) =
      (a ++ (splitChar c b).headD []) :: (splitChar c b).tail := by
  induction a with
  | nil =>
    simp only [List.nil_append]
    cases h : splitChar c b with
    | nil => exact absurd h (splitChar_ne_nil c b)
    | cons h t => simp
  | cons x xs ih =>
    have hx : x ≠ c := by
      intro hxc; exact ha (hxc ▸ List.mem_cons_self x xs)
    have ha' : c ∉ xs := fun hm => ha (List.mem_cons_of_mem _ hm)
    rw [List.cons_append, splitChar_cons_ne c x (xs ++ b) hx, ih ha']
    simp

theorem mem_splitChar_not_mem (c : Char) (s : Str) :
    ∀ p ∈ splitChar c s, c ∉ p := by
  induction s with
  | nil => simp [splitChar]
  | cons x xs ih =>
    simp only [splitChar]
    cases h : splitChar c xs with
    | nil => simp
    | cons hd tl =>
      have ihd := ih
      rw [h] at ihd
      by_cases hx : x = c
      · simp only [hx, if_pos rfl]
        intro p hp
        rcases List.mem_cons.mp hp with hp | hp
        · simp [hp]
        · exact ihd p hp
      · simp only [if_neg hx]
        intro p hp
        rcases List.mem_cons.mp hp with hp | hp
        · subst hp
          intro hm
          rcases List.mem_cons.mp hm with hm | hm
          · exact hx hm.symm
          · exact ihd hd (List.mem_cons_self hd tl) hm
        · exact ihd p (List.mem_cons_of_mem _ hp)

/-- Strip one trailing carriage return, as Rust's `lines()` does to every
`\n`-terminated line. -/
def stripCR1 (l : Str) : Str :=
  if l.getLast? = some '\r' then l.dropLast else l

theorem stripCR1_of_ne (l : Str) (h : l.getLast? ≠ some '\r') :
    stripCR1 l = l := by simp [stripCR1, h]

theorem stripCR1_of_not_mem (l : Str) (h : '\r' ∉ l) : stripCR1 l = l := by
  apply stripCR1_of_ne
  intro hl
  obtain ⟨hne, hx⟩ := List.mem_getLast?_eq_getLast (x := '\r') hl
  exact h (hx ▸ List.getLast_mem hne)

/-- Rust's `str::lines()`: split at `\n`; every `\n`-terminated piece has one
trailing `\r` removed; a final unterminated piece is kept verbatim, a final
empty piece (from a trailing `\n`) is dropped. -/
def rustLines (s : Str) : List Str :=
  match (splitChar '\n' s).getLast? with
  | none => (splitChar '\n' s).dropLast.map stripCR1
  | some [] => (splitChar '\n' s).dropLast.map stripCR1
  | some l => (splitChar '\n' s).dropLast.map stripCR1 ++ [l]

theorem rustLines_nil : rustLines [] = [] := by
  simp [rustLines, splitChar]

theorem rustLines_cons_nl (r : Str) :
    rustLines ('\n' :: r) = [] :: rustLines r := by
  unfold rustLines
  rw [splitChar_cons_self]
  cases h : splitChar '\n' r with
  | nil => exact absurd h (splitChar_ne_nil _ r)
  | cons hd tl =>
    simp only [List.dropLast_cons₂, List.map_cons, stripCR1, List.getLast?_cons_cons]
    cases htl : (hd :: tl).getLast? with
    | none => simp at htl
    | some l =>
      cases l with
      | nil => simp
      | cons a as => simp

/-- Rust's `str::starts_with(prefix)`. -/
def startsWithL : Str → Str → Bool
  | _, [] => true
  | [], _ :: _ => false
  | x :: xs, y :: ys => x = y && startsWithL xs ys

theorem startsWithL_append (p r : Str) : startsWithL (p ++ r) p = true := by
  induction p with
  | nil => cases r <;> simp [startsWithL]
  | cons x xs ih => simp [startsWithL, ih]

/-- Decimal digits, fuel-based so that the kernel can evaluate it
(`n + 1` fuel always suffices since `n / 10` shrinks each step). -/
def natDigitsCore : ℕ → ℕ → Str → Str
  | 0, _, acc => acc
  | fuel + 1, n, acc =>
    if n < 10 then Nat.digitChar n :: acc
    else natDigitsCore fuel (n / 10) (Nat.digitChar (n % 10) :: acc)

/-- Decimal digits of a natural number, most significant first
(Rust's `Display` for `u64`). -/
def natDigits (n : ℕ) : Str := natDigitsCore (n + 1) n []

def isDigitC (c : Char) : Bool := 48 ≤ c.toNat && c.toNat ≤ 57

theorem digitChar_isDigitC (d : ℕ) (h : d < 10) :
    isDigitC (Nat.digitChar d) = true := by
  interval_cases d <;> decide

theorem natDigitsCore_all_digit (fuel n : ℕ) (acc : Str)
    (hacc : ∀ c ∈ acc, isDigitC c = true) :
    ∀ c ∈ natDigitsCore fuel n acc, isDigitC c = true := by
  induction fuel generalizing n acc with
  | zero => exact hacc
  | succ fuel ih =>
    unfold natDigitsCore
    by_cases h : n < 10
    · rw [if_pos h]
      intro c hc
      rcases List.mem_cons.mp hc with hc | hc
      · exact hc ▸ digitChar_isDigitC n h
      · exact hacc c hc
    · rw [if_neg h]
      refine ih (n / 10) _ ?_
      intro c hc
      rcases List.mem_cons.mp hc with hc | hc
      · exact hc ▸ digitChar_isDigitC _ (Nat.mod_lt n (by omega))
      · exact hacc c hc

theorem natDigits_all_digit (n : ℕ) : ∀ c ∈ natDigits n, isDigitC c = true :=
  natDigitsCore_all_digit (n + 1) n [] (by simp)

theorem natDigitsCore_ne_nil (fuel n : ℕ) (acc : Str) (h : acc ≠ [] ∨ 0 < fuel) :
    natDigitsCore fuel n acc ≠ [] := by
  induction fuel generalizing n acc with
  | zero =>
    rcases h with h | h
    · exact h
    · omega
  | succ fuel ih =>
    unfold natDigitsCore
    by_cases hn : n < 10
    · simp [hn]
    · rw [if_neg hn]
      exact ih (n / 10) _ (Or.inl (by simp))

theorem natDigits_ne_nil (n : ℕ) : natDigits n ≠ [] :=
  natDigitsCore_ne_nil (n + 1) n [] (Or.inr (by omega))

/-! ### Numeric parsing

`u64::from_str` and the exact value semantics of `str::parse::<f32>`
followed by `Duration::from_secs_f32`. -/

def digitVal (c : Char) : ℕ := c.toNat - 48

def digitsToNat (l : Str) : ℕ := l.foldl (fun a c => 10 * a + digitVal c) 0

/-- Rust's `u64::from_str`: an optional leading `+`, at least one ASCII
digit, and the value must fit in 64 bits. -/
def parseU64 (l : Str) : Option ℕ :=
  let l' := match l with
    | '+' :: r => r
    | r => r
  if l' = [] then none
  else if l'.all isDigitC then
    let v := digitsToNat l'
    if v < 2 ^ 64 then some v else none
  else none

/-- The value of a parsed `f32`: NaN, a signed infinity, or a signed finite
magnitude `num / den` (the exact rational value of the rounded binary32). -/
inductive FVal where
  | nan : FVal
  | inf (neg : Bool) : FVal
  | fin (neg : Bool) (num den : ℕ) : FVal
deriving DecidableEq

/-- Round `num / den` half to even. -/
def rhe (num den : ℕ) : ℕ :=
  let q := num / den
  let r := num % den
  if 2 * r < den then q
  else if den < 2 * r then q + 1
  else if q % 2 = 0 then q else q + 1

/-- Is `2 ^ e ≤ num / den`? (`num`, `den` positive.) -/
def pow2le (e : ℤ) (num den : ℕ) : Bool :=
  if 0 ≤ e then Nat.ble (2 ^ e.toNat * den) num
  else Nat.ble den (num * 2 ^ (-e).toNat)

/-- `⌊log₂ n⌋` (0 for `n = 0`), fuel-based so that the kernel can
evaluate it; `fuel = n` always suffices since `n` halves each step. -/
def log2F : ℕ → ℕ → ℕ
  | 0, _ => 0
  | fuel + 1, n => if n < 2 then 0 else log2F fuel (n / 2) + 1

/-- `⌊log₂ (num / den)⌋` for positive `num / den`: the fuel-based
estimate is within one, and the `pow2le` tests settle it exactly. -/
def floorLog2 (num den : ℕ) : ℤ :=
  let c : ℤ := (log2F num num : ℤ) - (log2F den den : ℤ)
  if pow2le (c + 1) num den then c + 1
  else if pow2le c num den then c
  else c - 1

/-- Round the nonnegative rational `num / den` to the nearest binary32
value (ties to even), returning its exact value as a fraction, or `none`
on overflow to infinity. -/
def roundMagF32 (num den : ℕ) : Option (ℕ × ℕ) :=
  if num = 0 then some (0, 1)
  else
    let e := floorLog2 num den
    if e ≤ -127 then
      -- subnormal range (or rounds up to the minimum normal)
      some (rhe (num * 2 ^ 149) den, 2 ^ 149)
    else if 128 ≤ e then none
    else
      let m := if 0 ≤ 23 - e then rhe (num * 2 ^ (23 - e).toNat) den
               else rhe num (den * 2 ^ (e - 23).toNat)
      if e = 127 ∧ m = 2 ^ 24 then none
      else if 0 ≤ e - 23 then some (m * 2 ^ (e - 23).toNat, 1)
      else some (m, 2 ^ (23 - e).toNat)

def parseSign : Str → Bool × Str
  | '+' :: r => (false, r)
  | '-' :: r => (true, r)
  | r => (false, r)

def asciiLower (c : Char) : Char :=
  if 65 ≤ c.toNat ∧ c.toNat ≤ 90 then Char.ofNat (c.toNat + 32) else c

/-- Build the `FVal` of a decimal literal `mant * 10 ^ exp10`. -/
def mkF32 (neg : Bool) (mant : ℕ) (exp10 : ℤ) : Option FVal :=
  let nd := if 0 ≤ exp10 then (mant * 10 ^ exp10.toNat, 1)
            else (mant, 10 ^ (-exp10).toNat)
  match roundMagF32 nd.1 nd.2 with
  | none => some (.inf neg)
  | some (n, d) => some (.fin neg n d)

/-- The `Number [Exp]` part of Rust's float grammar, after the sign. -/
def parseDecimal (neg : Bool) (s : Str) : Option FVal :=
  let ip := s.takeWhile isDigitC
  let s1 := s.drop ip.length
  let hasDot : Bool := match s1 with
    | '.' :: _ => true
    | _ => false
  let fp := if hasDot then (s1.drop 1).takeWhile isDigitC else []
  let s2 := if hasDot then (s1.drop 1).drop fp.length else s1
  if ip = [] ∧ fp = [] then none
  else
    let mant := digitsToNat (ip ++ fp)
    match s2 with
    | [] => mkF32 neg mant (0 - (fp.length : ℤ))
    | e :: t =>
      if e = 'e' ∨ e = 'E' then
        let st := parseSign t
        if st.2 ≠ [] ∧ st.2.all isDigitC then
          let ev : ℤ := if st.1 then -(digitsToNat st.2 : ℤ) else (digitsToNat st.2 : ℤ)
          mkF32 neg mant (ev - (fp.length : ℤ))
        else none
      else none

/-- Rust's `str::parse::<f32>` (correctly rounded; grammar from the
`FromStr for f32` documentation). -/
def parseF32 (l : Str) : Option FVal :=
  if l = [] then none
  else
    let sr := parseSign l
    let low := sr.2.map asciiLower
    if low = "inf".data ∨ low = "infinity".data then some (.inf sr.1)
    else if low = "nan".data then some .nan
    else parseDecimal sr.1 sr.2

/-- `Timestamp` wraps a `std::time::Duration`: 64-bit whole seconds plus
subsecond nanoseconds below `10 ^ 9`. -/
structure Timestamp where
  secs : ℕ
  nanos : ℕ
deriving DecidableEq

/-- `Duration::from_secs_f32`: panics (`none`) on NaN, on any value below
zero (negative zero passes the `secs < 0.0` test), and on values of 2^64
seconds or more; otherwise rounds to the nearest nanosecond, ties to even. -/
def fromSecsF32 : FVal → Option Timestamp
  | .nan => none
  | .inf _ => none
  | .fin neg num den =>
    if neg ∧ num ≠ 0 then none
    else if den * 2 ^ 64 ≤ num then none
    else
      let t := rhe (num * 10 ^ 9) den
      some ⟨t / 10 ^ 9, t % 10 ^ 9⟩

/-- Errors of the source's `WebVTTError` enum, together with the two panics
reachable from `Timestamp::from` (panics abort like errors, so they share
the error channel of the embedding but remain distinguishable). -/
inductive WebVTTError where
  | parsing (expected found : String) : WebVTTError
  | panicFromSecsF32 : WebVTTError
  | panicDurationAdd : WebVTTError
deriving DecidableEq

/-- `u64` multiplication with release-profile wrapping. -/
def wrapMul (a b : ℕ) : ℕ := a * b % 2 ^ 64

/-- `u64::pow` with release-profile wrapping. -/
def wrapPow (b e : ℕ) : ℕ := b ^ e % 2 ^ 64

/-- `Duration + Duration`; Rust panics (`none`) when the seconds overflow
`u64`. -/
def durAdd (a b : Timestamp) : Option Timestamp :=
  let n := a.nanos + b.nanos
  let c := if 10 ^ 9 ≤ n then 1 else 0
  let n' := if 10 ^ 9 ≤ n then n - 10 ^ 9 else n
  if a.secs + b.secs + c < 2 ^ 64 then some ⟨a.secs + b.secs + c, n'⟩
  else none

/-- The `for (i, el) in elements.iter().enumerate().skip(1)` loop of
`Timestamp::from`: each further segment is parsed as `u64` and contributes
`60.pow(i as u32) * el` seconds (`usize as u32` truncates, `pow` and `*`
wrap in release mode). -/
def tsSegLoop (i : ℕ) : List Str → Timestamp → Except WebVTTError Timestamp
  | [], d => .ok d
  | el :: els, d =>
    match parseU64 el with
    | none => .error (.parsing "a number" (String.mk el))
    | some u =>
      match durAdd d ⟨wrapMul (wrapPow 60 (i % 2 ^ 32)) u, 0⟩ with
      | none => .error .panicDurationAdd
      | some d' => tsSegLoop (i + 1) els d'

/-- `Timestamp::from` (named `parseL` here; `from` is a Lean keyword):
split on `:`, reverse, parse the first element as `f32` seconds, convert
with `Duration::from_secs_f32`, then add the remaining segments. -/
def Timestamp.parseL (s : Str) : Except WebVTTError Timestamp :=
  match (splitChar ':' s).reverse with
  | [] => .error (.parsing "a timestamp" (String.mk s))
  | e0 :: rest =>
    match parseF32 e0 with
    | none => .error (.parsing "a decimal number" (String.mk e0))
    | some v =>
      match fromSecsF32 v with
      | none => .error .panicFromSecsF32
      | some d => tsSegLoop 1 rest d

def Timestamp.parse (s : String) : Except WebVTTError Timestamp :=
  Timestamp.parseL s.data

/-! ### Timerange, cues and tracks -/

/-- `Timerange(Timestamp, Timestamp)`; the source uses positional fields
`.0`/`.1`, the spec calls them start and end (`end` is a Lean keyword,
hence `stop`). -/
structure Timerange where
  start : Timestamp
  stop : Timestamp
deriving DecidableEq

/-- `Timerange::from`: split on single spaces; parse token 0 as the start
`Timestamp`, require token 1 to be `-->`, parse token 2 as the end
`Timestamp`.  `split` always yields a first token, so the
"a starting time" error of the source is unreachable but kept verbatim. -/
def Timerange.parseL (s : Str) : Except WebVTTError Timerange :=
  match splitChar ' ' s with
  | [] => .error (.parsing "a starting time" "")
  | st :: rest =>
    match Timestamp.parseL st with
    | .error e => .error e
    | .ok a =>
      if rest.headD [] = "-->".data then
        match rest.drop 1 with
        | [] => .error (.parsing "a end time" "")
        | en :: _ =>
          match Timestamp.parseL en with
          | .error e => .error e
          | .ok b => .ok ⟨a, b⟩
      else .error (.parsing "-->" (String.mk (rest.headD [])))

def Timerange.parse (s : String) : Except WebVTTError Timerange :=
  Timerange.parseL s.data

/-- `WebVTTCue(Timerange, Option<String>, String)`. -/
structure WebVTTCue where
  range : Timerange
  speaker : Option String
  text : String
deriving DecidableEq

/-- `WebVTTCue::from` (always returns `Ok` in the source). -/
def WebVTTCue.fromParts (r : Timerange) (l : Str) : WebVTTCue :=
  ⟨r, none, String.mk l⟩

/-- `WebVTT(Vec<WebVTTCue>)`. -/
structure WebVTT where
  cues : List WebVTTCue
deriving DecidableEq

/-- The line loop of `WebVTT::from`: blank lines clear the pending
`Timerange`; with no pending range a line is parsed as a `Timerange`;
with a pending range every line becomes one cue. -/
def parseBody : List Str → Option Timerange → List WebVTTCue →
    Except WebVTTError (List WebVTTCue)
  | [], _, acc => .ok acc
  | l :: ls, r, acc =>
    if isBlank l then parseBody ls none acc
    else
      match r with
      | none =>
        match Timerange.parseL l with
        | .error e => .error e
        | .ok rg => parseBody ls (some rg) acc
      | some rg => parseBody ls (some rg) (acc ++ [WebVTTCue.fromParts rg l])

/-- `string.lines().next().unwrap_or("")`. -/
def firstLineL (s : Str) : String := String.mk ((rustLines s).headD [])

/-- `WebVTT::from`: require the `WEBVTT` string prefix (6 ASCII bytes,
i.e. 6 characters), strip it, and scan the remaining lines. -/
def WebVTT.parseL (s : Str) : Except WebVTTError WebVTT :=
  if startsWithL s "WEBVTT".data then
    match parseBody (rustLines (s.drop 6)) none [] with
    | .error e => .error e
    | .ok cs => .ok ⟨cs⟩
  else .error (.parsing "WEBVTT" (firstLineL s))

def WebVTT.parse (s : String) : Except WebVTTError WebVTT :=
  WebVTT.parseL s.data

/-! ### Display -/

/-- Zero-padded minimum-width decimal, Rust's `{:02}` / `{:03}` formats. -/
def rustPad (w n : ℕ) : Str :=
  List.replicate (w - (natDigits n).length) '0' ++ natDigits n

/-- `Display for Timestamp`:
`"{:02}:{:02}:{:02}.{:03}"` of `secs / (60*60)`, `secs / 60 % 60`,
`secs % 60` and `subsec_millis` (`nanos / 1_000_000`). -/
def Timestamp.chars (t : Timestamp) : Str :=
  rustPad 2 (t.secs / (60 * 60)) ++ ':' ::
  (rustPad 2 (t.secs / 60 % 60) ++ ':' ::
  (rustPad 2 (t.secs % 60) ++ '.' :: rustPad 3 (t.nanos / 1000000)))

def Timestamp.format (t : Timestamp) : String := String.mk t.chars

/-- `Display for Timerange`: `"{} --> {}"`. -/
def Timerange.chars (r : Timerange) : Str :=
  r.start.chars ++ " --> ".data ++ r.stop.chars

def Timerange.format (r : Timerange) : String := String.mk r.chars

def speakerChars : Option String → Str
  | none => []
  | some s => "<v ".data ++ s.data ++ ['>']

/-- `Display for WebVTTCue`: a leading blank line, the range line, then
the optional `<v speaker>` prefix and the text line. -/
def WebVTTCue.chars (c : WebVTTCue) : Str :=
  '\n' :: (c.range.chars ++ '\n' :: (speakerChars c.speaker ++ c.text.data ++ ['\n']))

/-- `Display for WebVTT`: the header line then every cue. -/
def WebVTT.chars (t : WebVTT) : Str :=
  "WEBVTT\n".data ++ (t.cues.map WebVTTCue.chars).flatten

def WebVTT.format (t : WebVTT) : String := String.mk t.chars

/-! ### Sort, speaker tagging, merge -/

/-- Strict order on `Timestamp` (derived `Ord` on `Duration`:
lexicographic on seconds then nanoseconds). -/
def tsLt (a b : Timestamp) : Prop :=
  a.secs < b.secs ∨ (a.secs = b.secs ∧ a.nanos < b.nanos)

instance (a b : Timestamp) : Decidable (tsLt a b) := by
  unfold tsLt; infer_instance

def tsLe (a b : Timestamp) : Prop :=
  a.secs < b.secs ∨ (a.secs = b.secs ∧ a.nanos ≤ b.nanos)

theorem tsLe_of_not_lt {a b : Timestamp} (h : ¬ tsLt a b) : tsLe b a := by
  unfold tsLt at h
  unfold tsLe
  omega

theorem tsLe_of_lt {a b : Timestamp} (h : tsLt a b) : tsLe a b := by
  unfold tsLt at h
  unfold tsLe
  omega

theorem tsLe_trans {a b c : Timestamp} (h1 : tsLe a b) (h2 : tsLe b c) :
    tsLe a c := by
  unfold tsLe at h1 h2 ⊢
  omega

theorem not_tsLt_of_tsLe {a b : Timestamp} (h : tsLe a b) : ¬ tsLt b a := by
  unfold tsLe at h
  unfold tsLt
  omega

/-- Insert a cue after every already-placed cue whose start is strictly
smaller; together with `sortCues` this is the unique stable ascending
sort by `range.start`, the extensional behavior of the source's
`sort_by_key(|l| l.0.0)` (Rust's slice sort is stable). -/
def insertCue (c : WebVTTCue) : List WebVTTCue → List WebVTTCue
  | [] => [c]
  | d :: ds => if tsLt d.range.start c.range.start then d :: insertCue c ds
               else c :: d :: ds

def sortCues : List WebVTTCue → List WebVTTCue
  | [] => []
  | c :: cs => insertCue c (sortCues cs)

/-- `WebVTT::sort`. -/
def WebVTT.sortT (t : WebVTT) : WebVTT := ⟨sortCues t.cues⟩

/-- `WebVTT::set_speaker_for_all_lines`. -/
def WebVTT.setSpeakerForAllLines (t : WebVTT) (s : String) : WebVTT :=
  ⟨t.cues.map fun c => { c with speaker := some s }⟩

/-- `WebVTT::merge_with`: extend with the other track's cues, then sort. -/
def WebVTT.mergeWith (t o : WebVTT) : WebVTT :=
  (⟨t.cues ++ o.cues⟩ : WebVTT).sortT

/-- `WebVTT::new`. -/
def WebVTT.new : WebVTT := ⟨[]⟩

instance {ε α : Type} [DecidableEq ε] [DecidableEq α] :
    DecidableEq (Except ε α) := fun x y =>
  match x, y with
  | .error a, .error b =>
    if h : a = b then .isTrue (by rw [h])
    else .isFalse (by intro hh; injection hh; exact h (by assumption))
  | .error _, .ok _ => .isFalse (by intro hh; injection hh)
  | .ok _, .error _ => .isFalse (by intro hh; injection hh)
  | .ok a, .ok b =>
    if h : a = b then .isTrue (by rw [h])
    else .isFalse (by intro hh; injection hh; exact h (by assumption))

/-! ### Spec-side definitions

Definitions written from the specification's words, for comparison with
the embedded source. -/

/-- The spec's `60 ^ index * value` accumulation over the non-seconds
segments, `index` counted from the seconds segment. -/
def specSum (i : ℕ) : List ℕ → ℕ
  | [] => 0
  | u :: us => 60 ^ i * u + specSum (i + 1) us

/-- Parse every segment as a non-negative 64-bit integer. -/
def parseAllU64 : List Str → Option (List ℕ)
  | [] => some []
  | l :: ls =>
    match parseU64 l, parseAllU64 ls with
    | some u, some us => some (u :: us)
    | _, _ => none

/-- Every segment's `60 ^ index * value` fits in 64 bits. -/
def fitsFrom (i : ℕ) : List ℕ → Bool
  | [] => true
  | u :: us => decide (60 ^ i * u < 2 ^ 64) && fitsFrom (i + 1) us

/-- Modelled from the spec's words (C2): the text is split on `:` and
reversed; the last segment is parsed as a non-negative floating-point
number of seconds with millisecond precision truncation; each remaining
segment at distance `index` contributes `60 ^ index * value` seconds. -/
def Timestamp.specParseMsTrunc (s : String) : Except WebVTTError Timestamp :=
  match (splitChar ':' s.data).reverse with
  | [] => .error (.parsing "a timestamp" s)
  | e0 :: rest =>
    match parseF32 e0 with
    | some (.fin false num den) =>
      match parseAllU64 rest with
      | some us =>
        let ms := num * 1000 / den
        .ok ⟨ms / 1000 + specSum 1 us, ms % 1000 * 1000000⟩
      | none => .error (.parsing "a number" "")
    | _ => .error (.parsing "a decimal number" (String.mk e0))

/-- Zero-extend a digit string on the left until it reaches width `w`
(the spec's "zero-padded to at least `w` digits"). -/
def padNum (w : ℕ) (s : Str) : Str :=
  if s.length < w then padNum w ('0' :: s) else s
termination_by w - s.length
decreasing_by
  simp only [List.length_cons]
  omega

/-- Modelled from the spec's words (C6): exactly three components
`HH:MM:SS.mmm`, `HH = total_seconds / 3600` with no modulus cap,
`MM = total_seconds / 60 % 60`, `SS = total_seconds % 60`, all zero-padded
to at least two digits, and `mmm` the millisecond remainder zero-padded to
three digits. -/
def Timestamp.specChars (t : Timestamp) : Str :=
  padNum 2 (natDigits (t.secs / 3600)) ++ ':' ::
  (padNum 2 (natDigits (t.secs / 60 % 60)) ++ ':' ::
  (padNum 2 (natDigits (t.secs % 60)) ++ '.' ::
  padNum 3 (natDigits (t.nanos / 1000000))))

/-- Does a cue start exactly at `k`? (The sort key of `WebVTT::sort`.) -/
def startEq (k : Timestamp) (c : WebVTTCue) : Bool :=
  decide (c.range.start = k)

/-! ### Properties of the stable sort -/

theorem insertCue_perm (c : WebVTTCue) (l : List WebVTTCue) :
    (insertCue c l).Perm (c :: l) := by
  induction l with
  | nil => simp [insertCue]
  | cons d ds ih =>
    simp only [insertCue]
    by_cases h : tsLt d.range.start c.range.start
    · simp only [if_pos h]
      exact (ih.cons d).trans (List.Perm.swap c d ds)
    · simp [if_neg h]

theorem sortCues_perm (l : List WebVTTCue) : (sortCues l).Perm l := by
  induction l with
  | nil => simp [sortCues]
  | cons c cs ih =>
    exact (insertCue_perm c (sortCues cs)).trans (ih.cons c)

theorem filter_insertCue_eq (k : Timestamp) (c : WebVTTCue)
    (l : List WebVTTCue) (hc : c.range.start = k) :
    (insertCue c l).filter (startEq k) = c :: l.filter (startEq k) := by
  have hcf : startEq k c = true := by simp [startEq, hc]
  induction l with
  | nil => simp [insertCue, List.filter_cons, hcf]
  | cons d ds ih =>
    simp only [insertCue]
    by_cases h : tsLt d.range.start c.range.start
    · have hd : startEq k d = false := by
        simp only [startEq, decide_eq_false_iff_not]
        intro hdk
        rw [hdk, hc] at h
        unfold tsLt at h
        omega
      rw [if_pos h, List.filter_cons, List.filter_cons, hd, ih]
      simp [hd]
    · rw [if_neg h, List.filter_cons, hcf]
      simp

theorem filter_insertCue_ne (k : Timestamp) (c : WebVTTCue)
    (l : List WebVTTCue) (hc : c.range.start ≠ k) :
    (insertCue c l).filter (startEq k) = l.filter (startEq k) := by
  have hcf : startEq k c = false := by
    simp [startEq, hc]
  induction l with
  | nil => simp [insertCue, List.filter, hcf]
  | cons d ds ih =>
    simp only [insertCue]
    by_cases h : tsLt d.range.start c.range.start
    · rw [if_pos h, List.filter_cons, List.filter_cons, ih]
    · rw [if_neg h, List.filter_cons, hcf]
      simp

/-- Stability: sorting never reorders cues sharing one start time. -/
theorem sortCues_filter (k : Timestamp) (l : List WebVTTCue) :
    (sortCues l).filter (startEq k) = l.filter (startEq k) := by
  induction l with
  | nil => simp [sortCues]
  | cons c cs ih =>
    simp only [sortCues]
    by_cases hc : c.range.start = k
    · rw [filter_insertCue_eq k c _ hc, ih, List.filter_cons]
      simp [startEq, hc]
    · rw [filter_insertCue_ne k c _ hc, ih, List.filter_cons]
      simp [startEq, hc]

/-- The ordering the sort establishes: nondecreasing start timestamps. -/
def cueLe (a b : WebVTTCue) : Prop := tsLe a.range.start b.range.start

theorem insertCue_sorted (c : WebVTTCue) (l : List WebVTTCue)
    (hl : l.Pairwise cueLe) : (insertCue c l).Pairwise cueLe := by
  induction l with
  | nil => simp [insertCue, List.pairwise_cons]
  | cons d ds ih =>
    rw [List.pairwise_cons] at hl
    simp only [insertCue]
    by_cases h : tsLt d.range.start c.range.start
    · rw [if_pos h, List.pairwise_cons]
      refine ⟨?_, ih hl.2⟩
      intro e he
      rcases List.mem_cons.mp ((insertCue_perm c ds).mem_iff.mp he) with he | he
      · exact he ▸ tsLe_of_lt h
      · exact hl.1 e he
    · rw [if_neg h, List.pairwise_cons]
      refine ⟨?_, List.pairwise_cons.mpr hl⟩
      intro e he
      rcases List.mem_cons.mp he with he | he
      · exact he ▸ tsLe_of_not_lt h
      · exact tsLe_trans (tsLe_of_not_lt h) (hl.1 e he)

theorem sortCues_sorted (l : List WebVTTCue) :
    (sortCues l).Pairwise cueLe := by
  induction l with
  | nil => simp [sortCues]
  | cons c cs ih => exact insertCue_sorted c _ ih

theorem insertCue_of_le (c : WebVTTCue) (l : List WebVTTCue)
    (h : ∀ d ∈ l, cueLe c d) : insertCue c l = c :: l := by
  cases l with
  | nil => rfl
  | cons d ds =>
    have := not_tsLt_of_tsLe (h d (List.mem_cons_self d ds))
    simp [insertCue, this]

theorem sortCues_of_sorted (l : List WebVTTCue)
    (hl : l.Pairwise cueLe) : sortCues l = l := by
  induction l with
  | nil => rfl
  | cons c cs ih =>
    rw [List.pairwise_cons] at hl
    simp only [sortCues]
    rw [ih hl.2]
    exact insertCue_of_le c cs hl.1

theorem sortCues_idem (l : List WebVTTCue) :
    sortCues (sortCues l) = sortCues l :=
  sortCues_of_sorted _ (sortCues_sorted l)

theorem tsLe_total (a b : Timestamp) : tsLe a b ∨ tsLe b a := by
  unfold tsLe
  omega

theorem tsLt_of_le_ne {a b : Timestamp} (h : tsLe a b) (hne : a ≠ b) :
    tsLt a b := by
  unfold tsLe at h
  unfold tsLt
  have hn : ¬ (a.secs = b.secs ∧ a.nanos = b.nanos) := by
    intro hc
    apply hne
    cases a
    cases b
    simp only [Timestamp.mk.injEq]
    exact hc
  omega

theorem filter_cons_pos (k : Timestamp) (x : WebVTTCue)
    (xs : List WebVTTCue) (hx : startEq k x = true) :
    (x :: xs).filter (startEq k) = x :: xs.filter (startEq k) := by
  rw [List.filter_cons, hx]
  simp

theorem filter_cons_neg (k : Timestamp) (x : WebVTTCue)
    (xs : List WebVTTCue) (hx : startEq k x = false) :
    (x :: xs).filter (startEq k) = xs.filter (startEq k) := by
  rw [List.filter_cons, hx]
  simp

/-- The filter at key `k` of a list all of whose cues start strictly
above `k` is empty. -/
theorem filter_eq_nil_of_above (k : Timestamp) (b : WebVTTCue)
    (t : List WebVTTCue) (hlt : tsLt k b.range.start)
    (hs : ∀ x ∈ t, cueLe b x) :
    (b :: t).filter (startEq k) = [] := by
  rw [List.filter_eq_nil_iff]
  intro x hx
  have hxk : tsLt k x.range.start := by
    rcases List.mem_cons.mp hx with hx | hx
    · exact hx ▸ hlt
    · have := hs x hx
      unfold cueLe tsLe at this
      unfold tsLt at hlt ⊢
      omega
  simp only [startEq, decide_eq_true_eq]
  intro he
  rw [he] at hxk
  unfold tsLt at hxk
  omega

/-- Two key-sorted lists with identical per-key filters are equal. -/
theorem sorted_filter_ext (l1 : List WebVTTCue) :
    ∀ l2 : List WebVTTCue,
      l1.Pairwise cueLe → l2.Pairwise cueLe →
      (∀ k, l1.filter (startEq k) = l2.filter (startEq k)) →
      l1 = l2 := by
  induction l1 with
  | nil =>
    intro l2 _ _ hf
    cases l2 with
    | nil => rfl
    | cons b t =>
      have h := hf b.range.start
      rw [List.filter_nil, List.filter_cons] at h
      simp [startEq] at h
  | cons a t1 ih =>
    intro l2 hs1 hs2 hf
    cases l2 with
    | nil =>
      have h := hf a.range.start
      rw [List.filter_nil, List.filter_cons] at h
      simp [startEq] at h
    | cons b t2 =>
      rw [List.pairwise_cons] at hs1 hs2
      have hk : a.range.start = b.range.start := by
        rcases tsLe_total a.range.start b.range.start with hle | hle
        · by_contra hne
          have hlt := tsLt_of_le_ne hle hne
          have h := hf a.range.start
          rw [filter_eq_nil_of_above a.range.start b t2 hlt hs2.1,
            filter_cons_pos _ _ _ (by simp [startEq])] at h
          simp at h
        · by_contra hne
          have hlt := tsLt_of_le_ne hle (fun he => hne he.symm)
          have h := hf b.range.start
          rw [filter_eq_nil_of_above b.range.start a t1 hlt hs1.1,
            filter_cons_pos _ _ _ (by simp [startEq])] at h
          simp at h
      have hab : a = b := by
        have h := hf a.range.start
        rw [filter_cons_pos _ _ _ (by simp [startEq]),
          filter_cons_pos _ _ _ (by simp [startEq, hk]),
          List.cons.injEq] at h
        exact h.1
      subst hab
      have htails : ∀ k, t1.filter (startEq k) = t2.filter (startEq k) := by
        intro k
        have h := hf k
        cases hka : startEq k a with
        | false =>
          rw [filter_cons_neg _ _ _ hka, filter_cons_neg _ _ _ hka] at h
          exact h
        | true =>
          rw [filter_cons_pos _ _ _ hka, filter_cons_pos _ _ _ hka] at h
          injection h
      rw [ih t2 hs1.2 hs2.2 htails]

/-- `sortCues` is the unique stable ascending sort by start key: any
permutation of `l` that is sorted by start and preserves the relative
order of equal-start cues is `sortCues l`.  This is exactly the contract
of Rust's stable `sort_by_key`, so the insertion sort above is its
extensional embedding. -/
theorem stable_sort_unique (l l' : List WebVTTCue)
    (hperm : l'.Perm l) (hsort : l'.Pairwise cueLe)
    (hstable : ∀ k, l'.filter (startEq k) = l.filter (startEq k)) :
    l' = sortCues l := by
  apply sorted_filter_ext l' (sortCues l) hsort (sortCues_sorted l)
  intro k
  rw [hstable k, sortCues_filter]

/-! ### Claim theorems: sorting, merging, tagging, formatting -/

/-- C5: `Track::sort` is a stable sort of the cue sequence keyed by
`range.start` only: the result is a permutation ordered by start time
alone, cues with equal start time retain their prior relative order, and
sorting is idempotent. -/
theorem c5_sort_stable_idempotent :
    (∀ t : WebVTT, t.sortT.cues.Pairwise cueLe) ∧
    (∀ t : WebVTT, t.sortT.cues.Perm t.cues) ∧
    (∀ (t : WebVTT) (k : Timestamp),
      t.sortT.cues.filter (startEq k) = t.cues.filter (startEq k)) ∧
    (∀ t : WebVTT, t.sortT.sortT = t.sortT) :=
  ⟨fun t => sortCues_sorted t.cues,
   fun t => sortCues_perm t.cues,
   fun t k => sortCues_filter k t.cues,
   fun t => congrArg WebVTT.mk (sortCues_idem t.cues)⟩

/-- C4: `Track::merge_with` appends the other track's cues and stably
re-sorts by start time, so among cues sharing a start time `self`'s cues
(in prior order) precede `other`'s (in prior order); folding tracks
left-to-right orders equal-start ties file by file. -/
theorem c4_merge_stable_append :
    (∀ t o : WebVTT, t.mergeWith o = ⟨sortCues (t.cues ++ o.cues)⟩) ∧
    (∀ (t o : WebVTT) (k : Timestamp),
      (t.mergeWith o).cues.filter (startEq k) =
        t.cues.filter (startEq k) ++ o.cues.filter (startEq k)) ∧
    (∀ (ts : List WebVTT) (k : Timestamp),
      (ts.foldl WebVTT.mergeWith WebVTT.new).cues.filter (startEq k) =
        (ts.map fun t => t.cues.filter (startEq k)).flatten) := by
  have hmerge : ∀ (t o : WebVTT) (k : Timestamp),
      (t.mergeWith o).cues.filter (startEq k) =
        t.cues.filter (startEq k) ++ o.cues.filter (startEq k) := by
    intro t o k
    show (sortCues (t.cues ++ o.cues)).filter (startEq k) = _
    rw [sortCues_filter, List.filter_append]
  refine ⟨fun t o => rfl, hmerge, ?_⟩
  have hfold : ∀ (ts : List WebVTT) (a : WebVTT) (k : Timestamp),
      (ts.foldl WebVTT.mergeWith a).cues.filter (startEq k) =
        a.cues.filter (startEq k) ++
          (ts.map fun t => t.cues.filter (startEq k)).flatten := by
    intro ts
    induction ts with
    | nil => intro a k; simp
    | cons t ts ih =>
      intro a k
      simp only [List.foldl_cons, List.map_cons, List.flatten_cons]
      rw [ih, hmerge, List.append_assoc]
  intro ts k
  rw [hfold]
  simp [WebVTT.new]

/-- C9: speaker tagging is total and idempotent: after
`set_speaker_for_all_lines(s)` every cue's speaker is `s` regardless of
its prior value, and tagging twice equals tagging once. -/
theorem c9_speaker_total_idempotent :
    (∀ (t : WebVTT) (s : String),
      ∀ c ∈ (t.setSpeakerForAllLines s).cues, c.speaker = some s) ∧
    (∀ (t : WebVTT) (s : String),
      (t.setSpeakerForAllLines s).setSpeakerForAllLines s =
        t.setSpeakerForAllLines s) := by
  constructor
  · intro t s c hc
    simp only [WebVTT.setSpeakerForAllLines, List.mem_map] at hc
    obtain ⟨d, _, hd⟩ := hc
    rw [← hd]
  · intro t s
    simp [WebVTT.setSpeakerForAllLines, Function.comp]

/-- C9 witness: tagging a concrete one-cue track with `"A"`. -/
theorem c9_witness :
    (WebVTTCue.mk ⟨⟨1, 0⟩, ⟨2, 0⟩⟩ (some "A") "hi").speaker = some "A" :=
  c9_speaker_total_idempotent.1 ⟨[⟨⟨⟨1, 0⟩, ⟨2, 0⟩⟩, some "B", "hi"⟩]⟩ "A"
    _ (by simp [WebVTT.setSpeakerForAllLines])

theorem padNum_eq_replicate (w : ℕ) (s : Str) :
    padNum w s = List.replicate (w - s.length) '0' ++ s := by
  suffices h : ∀ (k : ℕ) (s : Str), w - s.length = k →
      padNum w s = List.replicate (w - s.length) '0' ++ s by
    exact h (w - s.length) s rfl
  intro k
  induction k with
  | zero =>
    intro s hs
    unfold padNum
    rw [if_neg (by omega), hs, List.replicate_zero, List.nil_append]
  | succ k ih =>
    intro s hs
    unfold padNum
    rw [if_pos (by omega)]
    rw [ih ('0' :: s) (by simp; omega)]
    have h1 : w - s.length = (w - ('0' :: s).length) + 1 := by
      simp only [List.length_cons]
      omega
    rw [h1, List.replicate_succ']
    simp

/-- C6: for every `Timestamp`, `format` renders exactly
`HH:MM:SS.mmm` with `HH = total_seconds / 3600` (no modulus cap),
`MM = total_seconds / 60 % 60`, `SS = total_seconds % 60`, each
zero-padded to at least two digits, and `mmm` the millisecond remainder
zero-padded to three digits; e.g. 90061.005 s renders as
`25:01:01.005`. -/
theorem c6_format_fields :
    (∀ t : Timestamp, t.format = String.mk t.specChars) ∧
    Timestamp.format ⟨90061, 5000000⟩ = "25:01:01.005" := by
  constructor
  · intro t
    unfold Timestamp.format Timestamp.chars Timestamp.specChars rustPad
    rw [padNum_eq_replicate, padNum_eq_replicate, padNum_eq_replicate,
      padNum_eq_replicate]
  · decide

/-! ### Claim theorems: document parsing -/

/-- C1: while scanning, a blank line clears the pending `Timerange`; a
non-blank line with no pending range is parsed as a new `Timerange`; a
run of non-blank lines under a pending range appends one separate cue
per line, each carrying that identical range; and concretely a block
with two text lines after one timing line yields two cues sharing the
identical timing. -/
theorem c1_parse_splits_cues :
    (∀ (l : Str) (ls : List Str) (r : Option Timerange) (acc : List WebVTTCue),
      isBlank l = true → parseBody (l :: ls) r acc = parseBody ls none acc) ∧
    (∀ (l : Str) (ls : List Str) (acc : List WebVTTCue),
      isBlank l = false →
      parseBody (l :: ls) none acc =
        match Timerange.parseL l with
        | .error e => .error e
        | .ok rg => parseBody ls (some rg) acc) ∧
    (∀ (ts ls : List Str) (r : Timerange) (acc : List WebVTTCue),
      (∀ t ∈ ts, isBlank t = false) →
      parseBody (ts ++ ls) (some r) acc =
        parseBody ls (some r) (acc ++ ts.map (WebVTTCue.fromParts r))) ∧
    WebVTT.parse "WEBVTT\n\n1 --> 2\na\nb\n" =
      .ok ⟨[⟨⟨⟨1, 0⟩, ⟨2, 0⟩⟩, none, "a"⟩, ⟨⟨⟨1, 0⟩, ⟨2, 0⟩⟩, none, "b"⟩]⟩ := by
  refine ⟨?_, ?_, ?_, by decide⟩
  · intro l ls r acc h
    simp [parseBody, h]
  · intro l ls acc h
    simp [parseBody, h]
  · intro ts
    induction ts with
    | nil => intro ls r acc h; simp
    | cons t ts ih =>
      intro ls r acc h
      have ht : isBlank t = false := h t (List.mem_cons_self t ts)
      have hts : ∀ u ∈ ts, isBlank u = false :=
        fun u hu => h u (List.mem_cons_of_mem _ hu)
      rw [List.cons_append]
      show parseBody (t :: (ts ++ ls)) (some r) acc = _
      simp only [parseBody, ht, Bool.false_eq_true, if_false]
      rw [ih ls r _ hts]
      simp

/-- C1 witness: two non-blank lines under one pending range become two
cues sharing that range. -/
theorem c1_witness :
    parseBody ["a".data, "b".data] (some ⟨⟨1, 0⟩, ⟨2, 0⟩⟩) [] =
      parseBody [] (some ⟨⟨1, 0⟩, ⟨2, 0⟩⟩)
        ([] ++ ["a".data, "b".data].map (WebVTTCue.fromParts ⟨⟨1, 0⟩, ⟨2, 0⟩⟩)) :=
  c1_parse_splits_cues.2.2.1 ["a".data, "b".data] [] ⟨⟨1, 0⟩, ⟨2, 0⟩⟩ []
    (by decide)

/-- No error produced after the header check carries expected-text
`"WEBVTT"`. -/
def notHeaderErr (e : WebVTTError) : Prop :=
  ∀ f, e ≠ .parsing "WEBVTT" f

theorem tsSegLoop_not_header (ls : List Str) :
    ∀ (i : ℕ) (d : Timestamp) (e : WebVTTError),
      tsSegLoop i ls d = .error e → notHeaderErr e := by
  induction ls with
  | nil => intro i d e h; simp [tsSegLoop] at h
  | cons el els ih =>
    intro i d e h
    unfold tsSegLoop at h
    split at h
    · injection h with h1
      subst h1
      intro f hf
      injection hf with h2 h3
      exact absurd h2 (by decide)
    · split at h
      · injection h with h1
        subst h1
        intro f hf
        simp at hf
      · exact ih _ _ _ h

theorem tsParse_not_header (s : Str) (e : WebVTTError)
    (h : Timestamp.parseL s = .error e) : notHeaderErr e := by
  unfold Timestamp.parseL at h
  split at h
  · injection h with h1
    subst h1
    intro f hf
    injection hf with h2 h3
    exact absurd h2 (by decide)
  · split at h
    · injection h with h1
      subst h1
      intro f hf
      injection hf with h2 h3
      exact absurd h2 (by decide)
    · split at h
      · injection h with h1
        subst h1
        intro f hf
        simp at hf
      · exact tsSegLoop_not_header _ _ _ _ h

theorem trParse_not_header (s : Str) (e : WebVTTError)
    (h : Timerange.parseL s = .error e) : notHeaderErr e := by
  unfold Timerange.parseL at h
  cases hsp : splitChar ' ' s with
  | nil =>
    rw [hsp] at h
    injection h with h1
    subst h1
    intro f hf
    injection hf with h2 h3
    exact absurd h2 (by decide)
  | cons st rest =>
    rw [hsp] at h
    dsimp only at h
    cases hts : Timestamp.parseL st with
    | error e1 =>
      rw [hts] at h
      injection h with h1
      subst h1
      exact tsParse_not_header _ _ hts
    | ok a =>
      rw [hts] at h
      dsimp only at h
      by_cases hsep : rest.headD [] = ['-', '-', '>']
      · rw [if_pos hsep] at h
        cases hdr : rest.drop 1 with
        | nil =>
          rw [hdr] at h
          injection h with h1
          subst h1
          intro f hf
          injection hf with h2 h3
          exact absurd h2 (by decide)
        | cons en tl =>
          rw [hdr] at h
          dsimp only at h
          cases hts2 : Timestamp.parseL en with
          | error e2 =>
            rw [hts2] at h
            injection h with h1
            subst h1
            exact tsParse_not_header _ _ hts2
          | ok b =>
            rw [hts2] at h
            injection h
      · rw [if_neg hsep] at h
        injection h with h1
        subst h1
        intro f hf
        injection hf with h2 h3
        exact absurd h2 (by decide)

theorem parseBody_not_header (ls : List Str) :
    ∀ (r : Option Timerange) (acc : List WebVTTCue) (e : WebVTTError),
      parseBody ls r acc = .error e → notHeaderErr e := by
  induction ls with
  | nil => intro r acc e h; simp [parseBody] at h
  | cons l ls ih =>
    intro r acc e h
    unfold parseBody at h
    split at h
    · exact ih _ _ _ h
    · split at h
      · split at h
        · injection h with h1
          subst h1
          exact trParse_not_header _ _ (by assumption)
        · exact ih _ _ _ h
      · exact ih _ _ _ h

/-- C7: `Track::parse` fails with a Parsing error expecting `"WEBVTT"`
and finding the first line (or `""`) exactly when the document does not
begin with the string `WEBVTT`; and the header is only a string prefix —
`WEBVTT` followed directly by the body parses exactly like `WEBVTT`
followed by a newline and the body. -/
theorem c7_header_prefix :
    (∀ s : String,
      WebVTT.parse s = .error (.parsing "WEBVTT" (firstLineL s.data)) ↔
        startsWithL s.data "WEBVTT".data = false) ∧
    (∀ r : Str,
      WebVTT.parseL ("WEBVTT".data ++ r) =
        WebVTT.parseL ("WEBVTT\n".data ++ r)) := by
  constructor
  · intro s
    constructor
    · intro h
      by_contra hb
      have hs : startsWithL s.data "WEBVTT".data = true := by
        cases hx : startsWithL s.data "WEBVTT".data
        · exact absurd hx hb
        · rfl
      unfold WebVTT.parse WebVTT.parseL at h
      rw [hs, if_pos rfl] at h
      split at h
      · exact parseBody_not_header _ _ _ _ (by assumption)
          (firstLineL s.data) (by injection h)
      · simp at h
    · intro h
      unfold WebVTT.parse WebVTT.parseL
      rw [h]
      simp
  · intro r
    have hdata : "WEBVTT\n".data = "WEBVTT".data ++ ['\n'] := by decide
    have hlen : ("WEBVTT".data).length = 6 := by decide
    unfold WebVTT.parseL
    rw [hdata, List.append_assoc]
    rw [startsWithL_append, startsWithL_append]
    rw [← hlen, List.drop_left, List.drop_left]
    have hstep : parseBody ([] :: rustLines r) none [] =
        parseBody (rustLines r) none [] := by
      simp [parseBody, isBlank]
    rw [List.singleton_append, rustLines_cons_nl, hstep]
    simp

/-! ### Claim theorems: Timestamp parsing -/

theorem tsSegLoop_ne_panicF32 (ls : List Str) :
    ∀ (i : ℕ) (d : Timestamp),
      tsSegLoop i ls d ≠ .error .panicFromSecsF32 := by
  induction ls with
  | nil => intro i d h; simp [tsSegLoop] at h
  | cons el els ih =>
    intro i d h
    unfold tsSegLoop at h
    split at h
    · injection h with h1
      injection h1
    · split at h
      · injection h with h1
        injection h1
      · exact ih _ _ h

/-- The seconds value is a finite, non-negative float whose seconds fit
into `u64` (the precondition named by C10). -/
def finiteNonnegInRange : FVal → Prop
  | .fin neg num den => (neg = false ∨ num = 0) ∧ num < den * 2 ^ 64
  | _ => False

/-- C10: `Timestamp::parse` is not total: a seconds segment that parses
as a negative or non-finite float (`"-1"`, `"inf"`, `"NaN"`) panics
inside `Duration::from_secs_f32` instead of producing a Parsing error;
and whenever the seconds segment parses as a finite non-negative
in-range float, that panic is unreachable. -/
theorem c10_from_secs_panic :
    (Timestamp.parse "-1" = .error .panicFromSecsF32 ∧
     Timestamp.parse "inf" = .error .panicFromSecsF32 ∧
     Timestamp.parse "NaN" = .error .panicFromSecsF32) ∧
    (∀ (s e0 : Str) (rest : List Str) (v : FVal),
      (splitChar ':' s).reverse = e0 :: rest →
      parseF32 e0 = some v →
      finiteNonnegInRange v →
      Timestamp.parseL s ≠ .error .panicFromSecsF32) := by
  constructor
  · exact ⟨by decide, by decide, by decide⟩
  · intro s e0 rest v hsp hv hfin
    cases v with
    | nan => exact absurd hfin (by simp [finiteNonnegInRange])
    | inf neg => exact absurd hfin (by simp [finiteNonnegInRange])
    | fin neg num den =>
      obtain ⟨hneg, hrange⟩ := hfin
      have hcond : ¬ (neg = true ∧ num ≠ 0) := by
        rcases hneg with h | h
        · rw [h]; simp
        · simp [h]
      have hconv : fromSecsF32 (.fin neg num den) =
          some ⟨rhe (num * 10 ^ 9) den / 10 ^ 9, rhe (num * 10 ^ 9) den % 10 ^ 9⟩ := by
        unfold fromSecsF32
        dsimp only
        rw [if_neg hcond, if_neg (by omega)]
      unfold Timestamp.parseL
      rw [hsp]
      dsimp only
      rw [hv]
      dsimp only
      rw [hconv]
      exact tsSegLoop_ne_panicF32 _ _ _

/-- C10 witness: the precondition holds at `"5"` and the call indeed does
not hit the `from_secs_f32` panic. -/
theorem c10_witness :
    Timestamp.parseL "5".data ≠ .error .panicFromSecsF32 :=
  c10_from_secs_panic.2 "5".data "5".data [] (.fin false 10485760 2097152)
    (by decide) (by decide) ⟨Or.inl rfl, by norm_num⟩

theorem fromSecsF32_nanos_lt (v : FVal) (d0 : Timestamp)
    (h : fromSecsF32 v = some d0) : d0.nanos < 10 ^ 9 := by
  cases v with
  | nan => exact absurd h (by simp [fromSecsF32])
  | inf neg => exact absurd h (by simp [fromSecsF32])
  | fin neg num den =>
    unfold fromSecsF32 at h
    dsimp only at h
    split at h
    · exact absurd h (by simp)
    · split at h
      · exact absurd h (by simp)
      · injection h with h1
        rw [← h1]
        exact Nat.mod_lt _ (by norm_num)

theorem wrap_term_eq (i u : ℕ) (h : 60 ^ i * u < 2 ^ 64) :
    wrapMul (wrapPow 60 (i % 2 ^ 32)) u = 60 ^ i * u := by
  rcases Nat.eq_zero_or_pos u with hu | hu
  · simp [hu, wrapMul]
  · have hp : 60 ^ i < 2 ^ 64 := by
      calc 60 ^ i = 60 ^ i * 1 := by ring
      _ ≤ 60 ^ i * u := Nat.mul_le_mul_left _ hu
      _ < 2 ^ 64 := h
    have hi : i < 64 := by
      by_contra hge
      have h1 : (2 : ℕ) ^ 64 ≤ 2 ^ i := Nat.pow_le_pow_right (by omega) (by omega)
      have h2 : (2 : ℕ) ^ i ≤ 60 ^ i := Nat.pow_le_pow_left (by omega) i
      omega
    have him : i % 2 ^ 32 = i := Nat.mod_eq_of_lt (by
      have : (64 : ℕ) ≤ 2 ^ 32 := by norm_num
      omega)
    rw [wrapPow, wrapMul, him, Nat.mod_eq_of_lt hp, Nat.mod_eq_of_lt h]

theorem tsSegLoop_spec (segs : List Str) :
    ∀ (us : List ℕ) (i : ℕ) (d : Timestamp),
      parseAllU64 segs = some us →
      fitsFrom i us = true →
      d.nanos < 10 ^ 9 →
      d.secs + specSum i us < 2 ^ 64 →
      tsSegLoop i segs d = .ok ⟨d.secs + specSum i us, d.nanos⟩ := by
  induction segs with
  | nil =>
    intro us i d hseg hfit hn hs
    unfold parseAllU64 at hseg
    injection hseg with h1
    subst h1
    simp [tsSegLoop, specSum]
  | cons el els ih =>
    intro us i d hseg hfit hn hs
    unfold parseAllU64 at hseg
    cases hu : parseU64 el with
    | none => rw [hu] at hseg; simp at hseg
    | some u =>
      rw [hu] at hseg
      cases hus : parseAllU64 els with
      | none => rw [hus] at hseg; simp at hseg
      | some us' =>
        rw [hus] at hseg
        dsimp only at hseg
        injection hseg with h1
        subst h1
        have hfit1 : 60 ^ i * u < 2 ^ 64 := by
          unfold fitsFrom at hfit
          simp only [Bool.and_eq_true, decide_eq_true_eq] at hfit
          exact hfit.1
        have hfit2 : fitsFrom (i + 1) us' = true := by
          unfold fitsFrom at hfit
          simp only [Bool.and_eq_true] at hfit
          exact hfit.2
        have hsum : specSum i (u :: us') = 60 ^ i * u + specSum (i + 1) us' := rfl
        unfold tsSegLoop
        rw [hu]
        dsimp only
        rw [wrap_term_eq i u hfit1]
        have hadd : durAdd d ⟨60 ^ i * u, 0⟩ =
            some ⟨d.secs + 60 ^ i * u, d.nanos⟩ := by
          unfold durAdd
          have hcn : ¬ 10 ^ 9 ≤ d.nanos + 0 := by omega
          dsimp only
          simp only [if_neg hcn]
          rw [if_pos (by rw [hsum] at hs; omega)]
          simp
        rw [hadd]
        dsimp only
        rw [ih us' (i + 1) ⟨d.secs + 60 ^ i * u, d.nanos⟩ hus hfit2 hn
          (by dsimp only; rw [hsum] at hs; omega)]
        have heq : d.secs + 60 ^ i * u + specSum (i + 1) us' =
            d.secs + specSum i (u :: us') := by
          rw [hsum]; ring
        dsimp only
        rw [heq]

/-- C2 counterexample: on `"0.0005"` the code keeps the full
nanosecond-resolution value 500000 ns, while the spec's algorithm
(millisecond precision truncation of the seconds float) yields 0. -/
theorem c2_counterexample :
    Timestamp.parse "0.0005" = .ok ⟨0, 500000⟩ ∧
    Timestamp.specParseMsTrunc "0.0005" = .ok ⟨0, 0⟩ ∧
    Timestamp.parse "0.0005" ≠ Timestamp.specParseMsTrunc "0.0005" :=
  ⟨by decide, by decide, by decide⟩

/-- C2 (amended): `Timestamp::parse` splits on `:` and reverses; the
seconds segment is parsed as a float and converted at full nanosecond
resolution (not truncated to milliseconds); every remaining segment at
distance `index` contributes `60 ^ index * value` seconds, for an
arbitrary number of components, provided each contribution and the total
stay within the 64-bit second range. -/
theorem c2_amended :
    ∀ (s e0 : Str) (rest : List Str) (v : FVal) (d0 : Timestamp)
      (us : List ℕ),
      (splitChar ':' s).reverse = e0 :: rest →
      parseF32 e0 = some v →
      fromSecsF32 v = some d0 →
      parseAllU64 rest = some us →
      fitsFrom 1 us = true →
      d0.secs + specSum 1 us < 2 ^ 64 →
      Timestamp.parseL s = .ok ⟨d0.secs + specSum 1 us, d0.nanos⟩ := by
  intro s e0 rest v d0 us hsp hv hd0 hus hfit hrange
  unfold Timestamp.parseL
  rw [hsp]
  dsimp only
  rw [hv]
  dsimp only
  rw [hd0]
  exact tsSegLoop_spec rest us 1 d0 hus hfit
    (fromSecsF32_nanos_lt v d0 hd0) hrange

/-- C2 witness: `"1:2:3.5"` evaluates to 1 h + 2 min + 3.5 s through the
amended formula. -/
theorem c2_witness :
    Timestamp.parseL "1:2:3.5".data = .ok ⟨3723, 500000000⟩ := by
  have h := c2_amended "1:2:3.5".data "3.5".data ["2".data, "1".data]
    (.fin false 14680064 4194304) ⟨3, 500000000⟩ [2, 1]
    (by decide) (by decide) (by decide) (by decide) (by decide) (by decide)
  exact h

/-! ### Claim theorems: Timerange parsing -/

/-- C8 counterexample: on `"x => 1"` the second token is `"=>"`, which
differs from the arrow, yet the parser reports the start-timestamp error
`("a decimal number", "x")` rather than the arrow error, because the
first token is parsed before the arrow is checked. -/
theorem c8_counterexample :
    ((splitChar ' ' "x => 1".data).drop 1).headD [] = "=>".data ∧
    Timerange.parse "x => 1" = .error (.parsing "a decimal number" "x") ∧
    Timerange.parse "x => 1" ≠ .error (.parsing "-->" "=>") :=
  ⟨by decide, by decide, by decide⟩

/-- C8 (amended): `Timerange::parse` splits the line on single spaces and
parses the first token as a `Timestamp` first, propagating its failure;
once that token parses, any second token different from `-->` (or a
missing one, read as `""`) yields the Parsing error expecting `"-->"`
and finding the second token — in particular
`"00:00:01.000 => 00:00:02.000"` fails naming `"-->"` expected and
`"=>"` found; a missing end token yields the `"a end time"` error; the
`"a starting time"` error is unreachable since splitting always yields a
first token. -/
theorem c8_amended :
    (∀ (s t0 : Str) (rest : List Str) (a : Timestamp),
      splitChar ' ' s = t0 :: rest →
      Timestamp.parseL t0 = .ok a →
      rest.headD [] ≠ "-->".data →
      Timerange.parseL s = .error (.parsing "-->" (String.mk (rest.headD [])))) ∧
    (∀ (s t0 : Str) (a : Timestamp),
      splitChar ' ' s = [t0, "-->".data] →
      Timestamp.parseL t0 = .ok a →
      Timerange.parseL s = .error (.parsing "a end time" "")) ∧
    Timerange.parse "00:00:01.000 => 00:00:02.000" =
      .error (.parsing "-->" "=>") ∧
    (∀ s : Str, splitChar ' ' s ≠ []) := by
  refine ⟨?_, ?_, by decide, fun s => splitChar_ne_nil ' ' s⟩
  · intro s t0 rest a hsp hts hsep
    unfold Timerange.parseL
    rw [hsp]
    dsimp only
    rw [hts]
    dsimp only
    rw [if_neg hsep]
  · intro s t0 a hsp hts
    unfold Timerange.parseL
    rw [hsp]
    dsimp only
    rw [hts]
    simp

/-- C8 witness: a wrong arrow after a valid start timestamp produces the
arrow error. -/
theorem c8_witness :
    Timerange.parseL "1 => 2".data = .error (.parsing "-->" "=>") := by
  have h := c8_amended.1 "1 => 2".data "1".data ["=>".data, "2".data]
    ⟨1, 0⟩ (by decide) (by decide) (by decide)
  exact h

/-! ### Round-tripping a serialized track -/

theorem rustPad_all_digit (w n : ℕ) : ∀ c ∈ rustPad w n, isDigitC c = true := by
  intro c hc
  rcases List.mem_append.mp hc with hc | hc
  · rw [List.eq_of_mem_replicate hc]; decide
  · exact natDigits_all_digit n c hc

theorem tsChars_class (t : Timestamp) :
    ∀ c ∈ t.chars, isDigitC c = true ∨ c = ':' ∨ c = '.' := by
  intro c hc
  unfold Timestamp.chars at hc
  simp only [List.mem_append, List.mem_cons] at hc
  rcases hc with hc | hc | hc | hc | hc | hc | hc
  · exact Or.inl (rustPad_all_digit _ _ c hc)
  · exact Or.inr (Or.inl hc)
  · exact Or.inl (rustPad_all_digit _ _ c hc)
  · exact Or.inr (Or.inl hc)
  · exact Or.inl (rustPad_all_digit _ _ c hc)
  · exact Or.inr (Or.inr hc)
  · exact Or.inl (rustPad_all_digit _ _ c hc)

theorem not_mem_tsChars (t : Timestamp) (x : Char)
    (hd : isDigitC x = false) (h1 : x ≠ ':') (h2 : x ≠ '.') :
    x ∉ t.chars := by
  intro hm
  rcases tsChars_class t x hm with h | h | h
  · rw [hd] at h; exact absurd h (by simp)
  · exact h1 h
  · exact h2 h

theorem not_mem_trChars (r : Timerange) (x : Char)
    (hd : isDigitC x = false) (h1 : x ≠ ':') (h2 : x ≠ '.')
    (h3 : x ∉ " --> ".data) : x ∉ r.chars := by
  intro hm
  unfold Timerange.chars at hm
  rw [List.append_assoc] at hm
  rcases List.mem_append.mp hm with hm | hm
  · exact not_mem_tsChars _ x hd h1 h2 hm
  · rcases List.mem_append.mp hm with hm | hm
    · exact h3 hm
    · exact not_mem_tsChars _ x hd h1 h2 hm

theorem trChars_no_nl (r : Timerange) : '\n' ∉ r.chars :=
  not_mem_trChars r '\n' (by decide) (by decide) (by decide) (by decide)

theorem trChars_no_cr (r : Timerange) : '\r' ∉ r.chars :=
  not_mem_trChars r '\r' (by decide) (by decide) (by decide) (by decide)

theorem trChars_not_blank (r : Timerange) : isBlank r.chars = false := by
  have hmem : '-' ∈ r.chars := by
    unfold Timerange.chars
    rw [List.append_assoc]
    exact List.mem_append.mpr
      (Or.inr (List.mem_append.mpr (Or.inl (by decide))))
  cases hall : r.chars.all isRustWhitespace with
  | false => exact hall
  | true =>
    exfalso
    have := List.all_eq_true.mp hall '-' hmem
    exact absurd this (by decide)

/-- Splitting the serialized cue blocks back into pieces: one empty
piece, the range line and the text line per cue, plus the final empty
piece from the trailing newline. -/
theorem splitNL_flatten (cs : List WebVTTCue)
    (h : ∀ c ∈ cs, c.speaker = none ∧ '\n' ∉ c.text.data) :
    splitChar '\n' ((cs.map WebVTTCue.chars).flatten) =
      (cs.map fun c => [([] : Str), c.range.chars, c.text.data]).flatten
        ++ [[]] := by
  induction cs with
  | nil => simp [splitChar]
  | cons c cs ih =>
    have hc := h c (List.mem_cons_self c cs)
    have hcs : ∀ c ∈ cs, c.speaker = none ∧ '\n' ∉ c.text.data :=
      fun d hd => h d (List.mem_cons_of_mem _ hd)
    have hchars : WebVTTCue.chars c ++ (cs.map WebVTTCue.chars).flatten =
        '\n' :: (c.range.chars ++ '\n' ::
          (c.text.data ++ '\n' :: (cs.map WebVTTCue.chars).flatten)) := by
      unfold WebVTTCue.chars
      rw [hc.1]
      simp [speakerChars, List.append_assoc]
    simp only [List.map_cons, List.flatten_cons]
    rw [hchars, splitChar_cons_self]
    rw [splitChar_append '\n' _ _ (trChars_no_nl c.range), splitChar_cons_self]
    rw [splitChar_append '\n' _ _ hc.2, splitChar_cons_self]
    simp only [List.headD_cons, List.tail_cons, List.append_nil]
    rw [ih hcs]
    simp

/-- `lines()` of a serialized cue list: blank separator, range line and
text line per cue. -/
theorem rustLines_flatten (cs : List WebVTTCue)
    (h : ∀ c ∈ cs, c.speaker = none ∧ '\n' ∉ c.text.data ∧
      c.text.data.getLast? ≠ some '\r') :
    rustLines ((cs.map WebVTTCue.chars).flatten) =
      (cs.map fun c => [([] : Str), c.range.chars, c.text.data]).flatten := by
  unfold rustLines
  rw [splitNL_flatten cs (fun c hc => ⟨(h c hc).1, (h c hc).2.1⟩)]
  rw [List.getLast?_concat, List.dropLast_concat]
  have hmap : ∀ cs' : List WebVTTCue, (∀ c ∈ cs', c.text.data.getLast? ≠ some '\r') →
      ((cs'.map fun c => [([] : Str), c.range.chars, c.text.data]).flatten).map stripCR1 =
        (cs'.map fun c => [([] : Str), c.range.chars, c.text.data]).flatten := by
    intro cs'
    induction cs' with
    | nil => intro _; simp
    | cons c cs' ih =>
      intro hcr
      simp only [List.map_cons, List.flatten_cons, List.map_append]
      rw [ih (fun d hd => hcr d (List.mem_cons_of_mem _ hd))]
      have h1 : stripCR1 ([] : Str) = [] := by decide
      have h2 : stripCR1 c.range.chars = c.range.chars :=
        stripCR1_of_not_mem _ (trChars_no_cr c.range)
      have h3 : stripCR1 c.text.data = c.text.data :=
        stripCR1_of_ne _ (hcr c (List.mem_cons_self c cs'))
      simp [h1, h2, h3]
  exact hmap cs (fun c hc => (h c hc).2.2)

/-- Parsing the serialized lines of a cue list reproduces it. -/
theorem parseBody_triples (cs : List WebVTTCue)
    (h : ∀ c ∈ cs, isBlank c.text.data = false ∧
      Timerange.parseL c.range.chars = .ok c.range ∧ c.speaker = none) :
    ∀ (r : Option Timerange) (acc : List WebVTTCue),
      parseBody ((cs.map fun c => [([] : Str), c.range.chars, c.text.data]).flatten)
        r acc = .ok (acc ++ cs) := by
  induction cs with
  | nil => intro r acc; simp [parseBody]
  | cons c cs ih =>
    intro r acc
    have hc := h c (List.mem_cons_self c cs)
    have hcs : ∀ d ∈ cs, isBlank d.text.data = false ∧
        Timerange.parseL d.range.chars = .ok d.range ∧ d.speaker = none :=
      fun d hd => h d (List.mem_cons_of_mem _ hd)
    simp only [List.map_cons, List.flatten_cons, List.cons_append,
      List.append_assoc]
    show parseBody ([] :: c.range.chars :: c.text.data ::
      (cs.map fun c => [([] : Str), c.range.chars, c.text.data]).flatten) r acc = _
    rw [show parseBody ([] :: c.range.chars :: c.text.data ::
        (cs.map fun c => [([] : Str), c.range.chars, c.text.data]).flatten) r acc =
        parseBody (c.range.chars :: c.text.data ::
          (cs.map fun c => [([] : Str), c.range.chars, c.text.data]).flatten)
          none acc from by simp [parseBody, isBlank]]
    rw [show parseBody (c.range.chars :: c.text.data ::
        (cs.map fun c => [([] : Str), c.range.chars, c.text.data]).flatten)
        none acc =
        parseBody (c.text.data ::
          (cs.map fun c => [([] : Str), c.range.chars, c.text.data]).flatten)
          (some c.range) acc from by
      simp only [parseBody, trChars_not_blank c.range, Bool.false_eq_true,
        if_false]
      rw [hc.2.1]]
    rw [show parseBody (c.text.data ::
        (cs.map fun c => [([] : Str), c.range.chars, c.text.data]).flatten)
        (some c.range) acc =
        parseBody ((cs.map fun c => [([] : Str), c.range.chars, c.text.data]).flatten)
          (some c.range) (acc ++ [WebVTTCue.fromParts c.range c.text.data]) from by
      simp only [parseBody, hc.1, Bool.false_eq_true, if_false]]
    have hcue : WebVTTCue.fromParts c.range c.text.data = c := by
      unfold WebVTTCue.fromParts
      cases c with
      | mk rg sp tx =>
        simp only at hc ⊢
        rw [hc.2.2]
    rw [hcue, ih hcs]
    simp

theorem mem_stripCR1 (x : Char) (l : Str) (h : x ∈ stripCR1 l) : x ∈ l := by
  unfold stripCR1 at h
  split at h
  · exact (List.dropLast_sublist l).mem h
  · exact h

theorem getLast?_mem_self {α : Type} (l : List α) (x : α)
    (h : l.getLast? = some x) : x ∈ l := by
  obtain ⟨hne, hx⟩ := List.mem_getLast?_eq_getLast (x := x) h
  exact hx ▸ List.getLast_mem hne

/-- Every line produced by `lines()` is free of `\n`. -/
theorem rustLines_no_nl (s : Str) : ∀ l ∈ rustLines s, '\n' ∉ l := by
  have hinit : ∀ l ∈ (splitChar '\n' s).dropLast.map stripCR1, '\n' ∉ l := by
    intro l hl
    obtain ⟨p, hp, hlp⟩ := List.mem_map.mp hl
    intro hx
    exact mem_splitChar_not_mem '\n' s p
      ((List.dropLast_sublist _).mem hp) (mem_stripCR1 _ _ (hlp ▸ hx))
  intro l hl
  unfold rustLines at hl
  split at hl
  · exact hinit l hl
  · exact hinit l hl
  · rcases List.mem_append.mp hl with hl | hl
    · exact hinit l hl
    · rcases List.mem_cons.mp hl with hl | hl
      · subst hl
        exact mem_splitChar_not_mem '\n' s l
          (getLast?_mem_self _ _ (by assumption))
      · simp at hl

/-- Invariant of the parse loop: every produced cue has no speaker and a
non-blank, newline-free text line. -/
theorem parseBody_good (ls : List Str) :
    ∀ (r : Option Timerange) (acc out : List WebVTTCue),
      (∀ l ∈ ls, '\n' ∉ l) →
      parseBody ls r acc = .ok out →
      (∀ c ∈ acc, c.speaker = none ∧ isBlank c.text.data = false ∧
        '\n' ∉ c.text.data) →
      (∀ c ∈ out, c.speaker = none ∧ isBlank c.text.data = false ∧
        '\n' ∉ c.text.data) := by
  induction ls with
  | nil =>
    intro r acc out _ h hacc
    unfold parseBody at h
    injection h with h1
    subst h1
    exact hacc
  | cons l ls ih =>
    intro r acc out hnl h hacc
    have hnl' : ∀ x ∈ ls, '\n' ∉ x :=
      fun x hx => hnl x (List.mem_cons_of_mem _ hx)
    unfold parseBody at h
    by_cases hb : isBlank l = true
    · rw [if_pos hb] at h
      exact ih none acc out hnl' h hacc
    · rw [if_neg hb] at h
      cases r with
      | none =>
        dsimp only at h
        cases htr : Timerange.parseL l with
        | error e =>
          rw [htr] at h
          exact absurd h (by simp)
        | ok rg =>
          rw [htr] at h
          exact ih (some rg) acc out hnl' h hacc
      | some rg =>
        dsimp only at h
        refine ih (some rg) _ out hnl' h ?_
        intro c hc
        rcases List.mem_append.mp hc with hc | hc
        · exact hacc c hc
        · rcases List.mem_cons.mp hc with hc | hc
          · subst hc
            refine ⟨rfl, ?_, ?_⟩
            · show isBlank l = false
              cases hbb : isBlank l
              · rfl
              · exact absurd hbb hb
            · show '\n' ∉ l
              exact hnl l (List.mem_cons_self l ls)
          · simp at hc

/-- Every track produced by `WebVTT::from` consists of cues with no
speaker and non-blank, newline-free text. -/
theorem webvttParse_good (d : Str) (t : WebVTT) (h : WebVTT.parseL d = .ok t) :
    ∀ c ∈ t.cues, c.speaker = none ∧ isBlank c.text.data = false ∧
      '\n' ∉ c.text.data := by
  unfold WebVTT.parseL at h
  by_cases hs : startsWithL d "WEBVTT".data = true
  · rw [if_pos hs] at h
    cases hp : parseBody (rustLines (d.drop 6)) none [] with
    | error e =>
      rw [hp] at h
      exact absurd h (by simp)
    | ok cs =>
      rw [hp] at h
      dsimp only at h
      injection h with h1
      subst h1
      exact parseBody_good _ none [] cs (rustLines_no_nl _) hp (by simp)
  · rw [if_neg hs] at h
    exact absurd h (by simp)

/-- C3 counterexample: the round trip fails as stated, in two ways.  A
text line ending in a carriage return (from a `\r\r\n` sequence) loses
the `\r` on reparsing; and the f32 seconds path drifts below the
millisecond: `"1.234"` parses to 1.233999968 s, serializes as
`00:00:01.233`, and reparses to 1.233000040 s — in both cases a document
whose single cue block has exactly one text line reparses to a different
Track. -/
theorem c3_counterexample :
    (WebVTT.parse "WEBVTT\n\n1 --> 2\nx\r\r\n" =
      .ok ⟨[⟨⟨⟨1, 0⟩, ⟨2, 0⟩⟩, none, "x\r"⟩]⟩) ∧
    (WebVTT.parse (WebVTT.format ⟨[⟨⟨⟨1, 0⟩, ⟨2, 0⟩⟩, none, "x\r"⟩]⟩) =
      .ok ⟨[⟨⟨⟨1, 0⟩, ⟨2, 0⟩⟩, none, "x"⟩]⟩) ∧
    ((⟨[⟨⟨⟨1, 0⟩, ⟨2, 0⟩⟩, none, "x"⟩]⟩ : WebVTT) ≠
      ⟨[⟨⟨⟨1, 0⟩, ⟨2, 0⟩⟩, none, "x\r"⟩]⟩) ∧
    (WebVTT.parse "WEBVTT\n\n1.234 --> 2\nhello\n" =
      .ok ⟨[⟨⟨⟨1, 233999968⟩, ⟨2, 0⟩⟩, none, "hello"⟩]⟩) ∧
    (WebVTT.parse (WebVTT.format ⟨[⟨⟨⟨1, 233999968⟩, ⟨2, 0⟩⟩, none, "hello"⟩]⟩) =
      .ok ⟨[⟨⟨⟨1, 233000040⟩, ⟨2, 0⟩⟩, none, "hello"⟩]⟩) ∧
    ((⟨⟨1, 233000040⟩, ⟨2, 0⟩⟩ : Timerange) ≠ ⟨⟨1, 233999968⟩, ⟨2, 0⟩⟩) :=
  ⟨by decide, by decide, by decide, by decide, by decide, by decide⟩

/-- C3 (amended): for every document accepted by `Track::parse`,
serializing and reparsing reproduces the same Track, provided no cue
text ends in a carriage return and every cue's serialized timing line
reparses to an equal `Timerange` (sub-millisecond f32 drift and
`\r`-final text lines are exactly the failures exhibited by the
counterexample; the claim's single-text-line-per-block restriction is
not needed at the Track level). -/
theorem c3_amended (d : String) (t : WebVTT)
    (hp : WebVTT.parse d = .ok t)
    (hr : ∀ c ∈ t.cues, Timerange.parse c.range.format = .ok c.range)
    (hcr : ∀ c ∈ t.cues, c.text.data.getLast? ≠ some '\r') :
    WebVTT.parse t.format = .ok t := by
  have hgood := webvttParse_good d.data t hp
  show WebVTT.parseL (WebVTT.format t).data = .ok t
  have hfd : (WebVTT.format t).data =
      "WEBVTT".data ++ ('\n' :: (t.cues.map WebVTTCue.chars).flatten) := by
    show WebVTT.chars t = _
    unfold WebVTT.chars
    rw [show "WEBVTT\n".data = "WEBVTT".data ++ ['\n'] from by decide,
      List.append_assoc, List.singleton_append]
  rw [hfd]
  unfold WebVTT.parseL
  rw [startsWithL_append, if_pos rfl]
  rw [show ("WEBVTT".data ++
      ('\n' :: (t.cues.map WebVTTCue.chars).flatten)).drop 6 =
      '\n' :: (t.cues.map WebVTTCue.chars).flatten from by
    rw [show (6 : ℕ) = ("WEBVTT".data).length from by decide, List.drop_left]]
  rw [rustLines_cons_nl]
  rw [rustLines_flatten t.cues
    (fun c hc => ⟨(hgood c hc).1, (hgood c hc).2.2, hcr c hc⟩)]
  rw [show parseBody ([] ::
      (t.cues.map fun c => [([] : Str), c.range.chars, c.text.data]).flatten)
      none [] =
      parseBody
        ((t.cues.map fun c => [([] : Str), c.range.chars, c.text.data]).flatten)
        none [] from by simp [parseBody, isBlank]]
  rw [parseBody_triples t.cues
    (fun c hc => ⟨(hgood c hc).2.1, hr c hc, (hgood c hc).1⟩) none []]
  simp

/-- C3 witness: a concrete accepted document whose serialization
reparses to the same track. -/
theorem c3_witness :
    WebVTT.parse (WebVTT.format ⟨[⟨⟨⟨1, 0⟩, ⟨2, 0⟩⟩, none, "x"⟩]⟩) =
      .ok ⟨[⟨⟨⟨1, 0⟩, ⟨2, 0⟩⟩, none, "x"⟩]⟩ := by
  have h := c3_amended "WEBVTT\n\n1 --> 2\nx\n"
    ⟨[⟨⟨⟨1, 0⟩, ⟨2, 0⟩⟩, none, "x"⟩]⟩ (by decide) (by decide) (by decide)
  exact h

end MergeVTT
